import Mathlib

/-!
# Fungible token ledger: a shallow embedding of
`near-contract-standards/src/fungible_token.rs`

The Rust code stores balances in a `LookupMap<AccountId, Nat>`
(`Nat = u128`) together with a `total_supply : u128` counter.  We embed
the map as an association list with first-occurrence lookup semantics
(matching a key-value store: `insert` overwrites the entry of an existing
key, `remove` deletes it), balances as `Nat` with the `u128` range made
explicit via `U128_LIMIT`, and every host panic (`env::panic`, `expect`,
`assert!`) as an `Except.error`.  On NEAR a panic aborts the invocation and
the host reverts every state write the invocation made, so an `.error`
result carries no state: the `commit` combinators below apply an outcome to
a pre-state, keeping the pre-state on error.  Logging (`env::log`) and the
actual promise dispatch have no ledger effect and are not modelled.
-/

/-- Account identifiers are opaque comparable strings (`AccountId = String`
in near-sdk). -/
abbrev AccountId := String

/-- Exclusive upper bound of the `u128` range. -/
def U128_LIMIT : Nat := 2 ^ 128

/-- `u128::checked_add`: `none` exactly when the mathematical sum leaves the
`u128` range. -/
def checked_add (a b : Nat) : Option Nat :=
  if a + b < U128_LIMIT then some (a + b) else none

/-- `u128::checked_sub`: `none` exactly when the subtraction would go below
zero. -/
def checked_sub (a b : Nat) : Option Nat :=
  if b ≤ a then some (a - b) else none

/-- The backing store of `LookupMap<AccountId, Nat>`: an association
list; the first entry with a given key is the authoritative one (states
reachable through the API never hold two entries for one key). -/
abbrev Accounts := List (AccountId × Nat)

/-- `LookupMap::get`. -/
def lookupGet : Accounts → AccountId → Option Nat
  | [], _ => none
  | (k, v) :: rest, a => if k = a then some v else lookupGet rest a

/-- `LookupMap::insert`: overwrite the entry of an existing key, otherwise
append a fresh entry. -/
def lookupInsert : Accounts → AccountId → Nat → Accounts
  | [], a, v => [(a, v)]
  | (k, w) :: rest, a, v =>
    if k = a then (a, v) :: rest else (k, w) :: lookupInsert rest a v

/-- `LookupMap::remove`: delete the entry of the key, if present. -/
def lookupRemove : Accounts → AccountId → Accounts
  | [], _ => []
  | (k, w) :: rest, a => if k = a then rest else (k, w) :: lookupRemove rest a

/-- Sum of all stored balances. -/
def sumBalances (m : Accounts) : Nat := (m.map Prod.snd).sum

/-- The association list holds at most one entry per account, so
`sumBalances` is the sum of the balances of the registered accounts. -/
def keysNodup (m : Accounts) : Prop := (m.map Prod.fst).Nodup

instance (m : Accounts) : Decidable (keysNodup m) := by
  unfold keysNodup; infer_instance

/-- The contract state: `pub struct FungibleToken` (its `accounts` map,
`total_supply`, and the measured `account_storage_usage`). -/
structure FungibleToken where
  accounts : Accounts
  total_supply : Nat
  account_storage_usage : Nat
  deriving Repr, DecidableEq

/-- `FungibleToken::new()`: the temporary account inserted to measure the
storage cost is removed again, leaving an empty map and zero supply; the
measured `account_storage_usage` is a host-dependent constant. -/
def initialState (storage_usage : Nat) : FungibleToken :=
  { accounts := [], total_supply := 0, account_storage_usage := storage_usage }

/-- Apply an invocation outcome to the pre-state: a panic reverts every
write of the invocation, so the pre-state survives an error. -/
def commit (ft : FungibleToken) : Except String FungibleToken → FungibleToken
  | .ok ft1 => ft1
  | .error _ => ft

/-- `FungibleToken::internal_deposit`.  Mirrors the source order: the new
balance is written before the total-supply overflow check, and the
`expect`-panic on that check reverts the already-written balance together
with the rest of the invocation. -/
def internal_deposit (ft : FungibleToken) (account_id : AccountId)
    (amount : Nat) : Except String FungibleToken :=
  match lookupGet ft.accounts account_id with
  | none => .error "The account is not registered"
  | some balance =>
    match checked_add balance amount with
    | some new_balance =>
      let ft1 := { ft with accounts := lookupInsert ft.accounts account_id new_balance }
      match checked_add ft1.total_supply amount with
      | some new_total => .ok { ft1 with total_supply := new_total }
      | none => .error "Total supply overflow"
    | none => .error "Balance overflow"

/-- `FungibleToken::internal_withdraw`.  Same write-then-check order as the
source; the total-supply `expect` reverts on underflow. -/
def internal_withdraw (ft : FungibleToken) (account_id : AccountId)
    (amount : Nat) : Except String FungibleToken :=
  match lookupGet ft.accounts account_id with
  | none => .error "The account is not registered"
  | some balance =>
    match checked_sub balance amount with
    | some new_balance =>
      let ft1 := { ft with accounts := lookupInsert ft.accounts account_id new_balance }
      match checked_sub ft1.total_supply amount with
      | some new_total => .ok { ft1 with total_supply := new_total }
      | none => .error "Total supply overflow"
    | none => .error "The account doesn't have enough balance"

/-- `FungibleToken::internal_transfer` (the memo argument only produces a
log line and is omitted). -/
def internal_transfer (ft : FungibleToken) (sender_id receiver_id : AccountId)
    (amount : Nat) : Except String FungibleToken :=
  if sender_id = receiver_id then
    .error "Sender and receiver should be different"
  else if amount = 0 then
    .error "The amount should be a positive number"
  else do
    let ft1 ← internal_withdraw ft sender_id amount
    internal_deposit ft1 receiver_id amount

/-- `FungibleToken::internal_register_account`: the source inserts a zero
balance and panics if the insert returned a previous value; the panic
reverts the insert, so the error branch keeps the pre-state. -/
def internal_register_account (ft : FungibleToken) (account_id : AccountId) :
    Except String FungibleToken :=
  match lookupGet ft.accounts account_id with
  | some _ => .error "The account is already registered"
  | none => .ok { ft with accounts := lookupInsert ft.accounts account_id 0 }

/-- `ft_transfer`: `assert_one_yocto` then `internal_transfer` from the
predecessor.  `attached_deposit` is the host-supplied attached payment. -/
def ft_transfer (ft : FungibleToken) (predecessor_id : AccountId)
    (attached_deposit : Nat) (receiver_id : AccountId) (amount : Nat) :
    Except String FungibleToken :=
  if attached_deposit = 1 then
    internal_transfer ft predecessor_id receiver_id amount
  else
    .error "Requires attached deposit of exactly 1 yoctoNEAR"

/-- `ft_transfer_call`, phase 1: its ledger effect in the current invocation
is exactly `ft_transfer`; the promise construction that schedules
`ft_on_transfer` and the `ft_resolve_transfer` callback writes no ledger
state. -/
def ft_transfer_call (ft : FungibleToken) (predecessor_id : AccountId)
    (attached_deposit : Nat) (receiver_id : AccountId) (amount : Nat) :
    Except String FungibleToken :=
  if attached_deposit = 1 then
    internal_transfer ft predecessor_id receiver_id amount
  else
    .error "Requires attached deposit of exactly 1 yoctoNEAR"

/-- Outcome of the `ft_on_transfer` promise, as seen by the resolution
callback.  `Successful parsed` carries the result of
`serde_json::from_slice::<U128>` on the returned bytes: `some u` when the
bytes parse as a `U128` with value `u`, `none` when they are malformed.
`PromiseResult::NotReady` is unreachable in a resolution callback and has no
constructor. -/
inductive HookResult where
  | Successful (parsed : Option Nat)
  | Failed
  deriving Repr, DecidableEq

/-- The unused amount computed by `ft_resolve_transfer` from the promise
result: a parsed success is clamped to `amount`, everything else counts as
fully unused. -/
def resolve_unused_amount (amount : Nat) (result : HookResult) : Nat :=
  match result with
  | .Successful (some unused_amount) => min amount unused_amount
  | .Successful none => amount
  | .Failed => amount

/-- `ft_resolve_transfer` (after `assert_self`; only the contract account
itself can invoke it).  Returns the used amount.  The source updates the
receiver entry before looking the sender up, so a sender equal to the
receiver would observe the already-debited balance; the bare `+` and `-=`
on the refund path abort the invocation on over/underflow (the crate builds
contracts with `overflow-checks = true`), which reverts like every other
panic. -/
def ft_resolve_transfer (ft : FungibleToken) (sender_id receiver_id : AccountId)
    (amount : Nat) (result : HookResult) :
    Except String (FungibleToken × Nat) :=
  let unused_amount := resolve_unused_amount amount result
  if 0 < unused_amount then
    let receiver_balance := (lookupGet ft.accounts receiver_id).getD 0
    if 0 < receiver_balance then
      let refund_amount := min receiver_balance unused_amount
      let acc1 := lookupInsert ft.accounts receiver_id (receiver_balance - refund_amount)
      let ft1 := { ft with accounts := acc1 }
      match lookupGet ft1.accounts sender_id with
      | some sender_balance =>
        match checked_add sender_balance refund_amount with
        | some new_sender_balance =>
          let acc2 := lookupInsert ft1.accounts sender_id new_sender_balance
          .ok ({ ft1 with accounts := acc2 }, amount - refund_amount)
        | none => .error "Balance overflow"
      | none =>
        match checked_sub ft1.total_supply refund_amount with
        | some new_total => .ok ({ ft1 with total_supply := new_total }, amount)
        | none => .error "Total supply overflow"
    else
      .ok (ft, amount)
  else
    .ok (ft, amount)

/-- The state left behind by a `ft_resolve_transfer` invocation (a panic
reverts). -/
def ft_resolve_transfer_commit (ft : FungibleToken)
    (sender_id receiver_id : AccountId) (amount : Nat)
    (result : HookResult) : FungibleToken :=
  match ft_resolve_transfer ft sender_id receiver_id amount result with
  | .ok (ft1, _) => ft1
  | .error _ => ft

/-- `AccountStorageBalance` of the storage-manager interface. -/
structure AccountStorageBalance where
  total : Nat
  available : Nat
  deriving Repr, DecidableEq

/-- `storage_minimum_balance`: storage bytes per account times the host's
cost per byte. -/
def storage_minimum_balance (ft : FungibleToken) (storage_byte_cost : Nat) : Nat :=
  ft.account_storage_usage * storage_byte_cost

/-- `storage_deposit`: requires the attached payment to equal the minimum
balance exactly, then registers the chosen account (the predecessor by
default). -/
def storage_deposit (ft : FungibleToken) (predecessor_id : AccountId)
    (account_id : Option AccountId) (attached_deposit storage_byte_cost : Nat) :
    Except String (FungibleToken × AccountStorageBalance) :=
  if attached_deposit = storage_minimum_balance ft storage_byte_cost then
    let account_id := account_id.getD predecessor_id
    match internal_register_account ft account_id with
    | .ok ft1 => .ok (ft1, ⟨attached_deposit, attached_deposit⟩)
    | .error e => .error e
  else
    .error "Requires attached deposit of the exact storage minimum balance"

/-- `storage_withdraw`: one yocto, exact minimum-balance amount, then the
source removes the ledger entry of the predecessor and only afterwards
panics if its balance was positive; the panic reverts the removal.  The
deposit refund is an outgoing payment with no ledger effect. -/
def storage_withdraw (ft : FungibleToken) (predecessor_id : AccountId)
    (attached_deposit : Nat) (amount : Nat) (storage_byte_cost : Nat) :
    Except String (FungibleToken × AccountStorageBalance) :=
  if attached_deposit = 1 then
    if amount = storage_minimum_balance ft storage_byte_cost then
      match lookupGet ft.accounts predecessor_id with
      | some balance =>
        let ft1 := { ft with accounts := lookupRemove ft.accounts predecessor_id }
        if 0 < balance then
          .error "The account has positive token balance"
        else
          .ok (ft1, ⟨0, 0⟩)
      | none => .error "The account is not registered"
    else
      .error "The withdrawal amount should be the exact storage minimum balance"
  else
    .error "Requires attached deposit of exactly 1 yoctoNEAR"

/-- One public invocation of the contract, with every host-supplied input
(predecessor, attached deposit, promise result, byte cost) made explicit. -/
inductive Op where
  | transfer (predecessor_id : AccountId) (attached_deposit : Nat)
      (receiver_id : AccountId) (amount : Nat)
  | transferCall (predecessor_id : AccountId) (attached_deposit : Nat)
      (receiver_id : AccountId) (amount : Nat)
  | resolveTransfer (sender_id receiver_id : AccountId) (amount : Nat)
      (result : HookResult)
  | storageDeposit (predecessor_id : AccountId) (account_id : Option AccountId)
      (attached_deposit storage_byte_cost : Nat)
  | storageWithdraw (predecessor_id : AccountId) (attached_deposit : Nat)
      (amount storage_byte_cost : Nat)

/-- Run one public invocation against a state: a panic anywhere inside it
reverts to the pre-state. -/
def applyOp (ft : FungibleToken) : Op → FungibleToken
  | .transfer p d r a => commit ft (ft_transfer ft p d r a)
  | .transferCall p d r a => commit ft (ft_transfer_call ft p d r a)
  | .resolveTransfer s r a res => ft_resolve_transfer_commit ft s r a res
  | .storageDeposit p acc d bc =>
    match storage_deposit ft p acc d bc with
    | .ok (ft1, _) => ft1
    | .error _ => ft
  | .storageWithdraw p d a bc =>
    match storage_withdraw ft p d a bc with
    | .ok (ft1, _) => ft1
    | .error _ => ft

/-- States reachable from the freshly constructed contract by any sequence
of public invocations. -/
inductive Reachable : FungibleToken → Prop where
  | init (storage_usage : Nat) : Reachable (initialState storage_usage)
  | step (ft : FungibleToken) (op : Op) : Reachable ft → Reachable (applyOp ft op)

/-- The ledger well-formedness invariant: one entry per account, total
supply equal to the sum of all balances, and the supply inside the `u128`
range. -/
def LedgerInv (ft : FungibleToken) : Prop :=
  keysNodup ft.accounts ∧ ft.total_supply = sumBalances ft.accounts ∧
    ft.total_supply < U128_LIMIT

instance (ft : FungibleToken) : Decidable (LedgerInv ft) := by
  unfold LedgerInv
  infer_instance

/-- The state left behind by a `storage_withdraw` invocation (a panic
reverts). -/
def storage_withdraw_commit (ft : FungibleToken) (predecessor_id : AccountId)
    (attached_deposit amount storage_byte_cost : Nat) : FungibleToken :=
  match storage_withdraw ft predecessor_id attached_deposit amount storage_byte_cost with
  | .ok (ft1, _) => ft1
  | .error _ => ft

/-- A small well-formed ledger used to exercise the theorems on concrete
inputs. -/
def sampleState : FungibleToken :=
  { accounts := [("alice", 100), ("bob", 50)], total_supply := 150,
    account_storage_usage := 0 }

/-- A ledger in which the sender account has been deregistered, used to
exercise the burn branch on concrete inputs. -/
def burnState : FungibleToken :=
  { accounts := [("bob", 50)], total_supply := 50, account_storage_usage := 0 }

/-- A ledger whose single balance and total supply sit at the top of the
`u128` range, used to exercise the overflow branch on concrete inputs. -/
def maxState : FungibleToken :=
  { accounts := [("alice", 2 ^ 128 - 1)], total_supply := 2 ^ 128 - 1,
    account_storage_usage := 0 }

/-! ## Arithmetic and association-list lemmas -/

theorem checked_add_eq_some {a b c : Nat} (h : checked_add a b = some c) :
    c = a + b ∧ a + b < U128_LIMIT := by
  unfold checked_add at h
  split at h <;> simp_all

theorem checked_add_of_lt {a b : Nat} (h : a + b < U128_LIMIT) :
    checked_add a b = some (a + b) := by
  unfold checked_add
  simp [h]

theorem checked_sub_eq_some {a b c : Nat} (h : checked_sub a b = some c) :
    c = a - b ∧ b ≤ a := by
  unfold checked_sub at h
  split at h <;> simp_all

theorem checked_sub_of_le {a b : Nat} (h : b ≤ a) :
    checked_sub a b = some (a - b) := by
  unfold checked_sub
  simp [h]

theorem lookupGet_insert_self (m : Accounts) (a : AccountId) (v : Nat) :
    lookupGet (lookupInsert m a v) a = some v := by
  induction m with
  | nil => simp [lookupInsert, lookupGet]
  | cons kv rest ih =>
    obtain ⟨k, w⟩ := kv
    by_cases hk : k = a
    · simp [lookupInsert, hk, lookupGet]
    · simp [lookupInsert, hk, lookupGet, ih]


theorem lookupGet_insert_ne (m : Accounts) (a b : AccountId) (v : Nat)
    (h : b ≠ a) : lookupGet (lookupInsert m a v) b = lookupGet m b := by
  have hab : ¬a = b := fun hc => h hc.symm
  induction m with
  | nil => simp [lookupInsert, lookupGet, hab]
  | cons kv rest ih =>
    obtain ⟨k, w⟩ := kv
    by_cases hk : k = a
    · simp [lookupInsert, lookupGet, hk, hab]
    · by_cases hkb : k = b
      · simp [lookupInsert, lookupGet, hk, hkb, h]
      · simp [lookupInsert, lookupGet, hk, hkb, ih]

theorem sumBalances_nil : sumBalances [] = 0 := rfl

theorem sumBalances_cons (k : AccountId) (v : Nat) (m : Accounts) :
    sumBalances ((k, v) :: m) = v + sumBalances m := by
  simp [sumBalances]

theorem sumBalances_insert_of_get {m : Accounts} {a : AccountId} {v : Nat}
    (w : Nat) (h : lookupGet m a = some v) :
    sumBalances (lookupInsert m a w) + v = sumBalances m + w := by
  induction m with
  | nil => simp [lookupGet] at h
  | cons kv rest ih =>
    obtain ⟨k, u⟩ := kv
    by_cases hk : k = a
    · simp [lookupGet, hk] at h
      simp [lookupInsert, hk, sumBalances_cons]
      omega
    · simp [lookupGet, hk] at h
      have ih1 := ih h
      simp [lookupInsert, hk, sumBalances_cons]
      omega

theorem sumBalances_insert_of_none {m : Accounts} {a : AccountId}
    (w : Nat) (h : lookupGet m a = none) :
    sumBalances (lookupInsert m a w) = sumBalances m + w := by
  induction m with
  | nil => simp [lookupInsert, sumBalances_cons, sumBalances_nil]
  | cons kv rest ih =>
    obtain ⟨k, u⟩ := kv
    by_cases hk : k = a
    · simp [lookupGet, hk] at h
    · simp [lookupGet, hk] at h
      simp [lookupInsert, hk, sumBalances_cons, ih h]
      omega

theorem lookupGet_le_sum {m : Accounts} {a : AccountId} {v : Nat}
    (h : lookupGet m a = some v) : v ≤ sumBalances m := by
  induction m with
  | nil => simp [lookupGet] at h
  | cons kv rest ih =>
    obtain ⟨k, u⟩ := kv
    by_cases hk : k = a
    · simp [lookupGet, hk] at h
      simp [sumBalances_cons]
      omega
    · simp [lookupGet, hk] at h
      have := ih h
      simp [sumBalances_cons]
      omega

theorem lookupGet_pair_le_sum {m : Accounts} {a b : AccountId} {v w : Nat}
    (hne : a ≠ b) (ha : lookupGet m a = some v) (hb : lookupGet m b = some w) :
    v + w ≤ sumBalances m := by
  induction m with
  | nil => simp [lookupGet] at ha
  | cons kv rest ih =>
    obtain ⟨k, u⟩ := kv
    by_cases hka : k = a
    · have hkb : ¬k = b := by rw [hka]; exact hne
      simp [lookupGet, hka] at ha
      simp [lookupGet, hkb] at hb
      have := lookupGet_le_sum hb
      simp [sumBalances_cons]
      omega
    · simp [lookupGet, hka] at ha
      by_cases hkb : k = b
      · simp [lookupGet, hkb] at hb
        have := lookupGet_le_sum ha
        simp [sumBalances_cons]
        omega
      · simp [lookupGet, hkb] at hb
        have := ih ha hb
        simp [sumBalances_cons]
        omega

theorem sumBalances_remove_of_get {m : Accounts} {a : AccountId} {v : Nat}
    (h : lookupGet m a = some v) :
    sumBalances (lookupRemove m a) + v = sumBalances m := by
  induction m with
  | nil => simp [lookupGet] at h
  | cons kv rest ih =>
    obtain ⟨k, u⟩ := kv
    by_cases hk : k = a
    · simp [lookupGet, hk] at h
      simp [lookupRemove, hk, sumBalances_cons]
      omega
    · simp [lookupGet, hk] at h
      have := ih h
      simp [lookupRemove, hk, sumBalances_cons]
      omega

theorem lookupGet_isSome_iff {m : Accounts} {a : AccountId} :
    (lookupGet m a).isSome = true ↔ a ∈ m.map Prod.fst := by
  induction m with
  | nil => simp [lookupGet]
  | cons kv rest ih =>
    obtain ⟨k, w⟩ := kv
    by_cases hk : k = a
    · simp [lookupGet, hk]
    · have hak : ¬a = k := fun hc => hk hc.symm
      simp [lookupGet, hk, hak, ih]

theorem lookupGet_none_not_mem {m : Accounts} {a : AccountId}
    (h : lookupGet m a = none) : a ∉ m.map Prod.fst := by
  intro hmem
  rw [← lookupGet_isSome_iff] at hmem
  rw [h] at hmem
  simp at hmem

theorem keys_insert_of_get_some {m : Accounts} {a : AccountId} {v0 : Nat}
    (h : lookupGet m a = some v0) (v : Nat) :
    (lookupInsert m a v).map Prod.fst = m.map Prod.fst := by
  induction m with
  | nil => simp [lookupGet] at h
  | cons kv rest ih =>
    obtain ⟨k, u⟩ := kv
    by_cases hk : k = a
    · simp [lookupInsert, hk]
    · simp [lookupGet, hk] at h
      simp [lookupInsert, hk, ih h]

theorem keys_insert_of_get_none {m : Accounts} {a : AccountId}
    (h : lookupGet m a = none) (v : Nat) :
    (lookupInsert m a v).map Prod.fst = m.map Prod.fst ++ [a] := by
  induction m with
  | nil => simp [lookupInsert]
  | cons kv rest ih =>
    obtain ⟨k, u⟩ := kv
    by_cases hk : k = a
    · simp [lookupGet, hk] at h
    · simp [lookupGet, hk] at h
      simp [lookupInsert, hk, ih h]

theorem keysNodup_insert (m : Accounts) (a : AccountId) (v : Nat)
    (h : keysNodup m) : keysNodup (lookupInsert m a v) := by
  unfold keysNodup at h ⊢
  cases hg : lookupGet m a with
  | some w => rw [keys_insert_of_get_some hg]; exact h
  | none =>
    rw [keys_insert_of_get_none hg]
    have hnm := lookupGet_none_not_mem hg
    exact h.append (List.nodup_singleton a)
      (fun x hx hxa => hnm ((List.mem_singleton.mp hxa) ▸ hx))

theorem keys_remove_sublist (m : Accounts) (a : AccountId) :
    ((lookupRemove m a).map Prod.fst).Sublist (m.map Prod.fst) := by
  induction m with
  | nil => simp [lookupRemove]
  | cons kv rest ih =>
    obtain ⟨k, u⟩ := kv
    by_cases hk : k = a
    · simp [lookupRemove, hk]
    · simp only [lookupRemove, if_neg hk, List.map_cons]
      exact ih.cons₂ k

theorem keysNodup_remove (m : Accounts) (a : AccountId)
    (h : keysNodup m) : keysNodup (lookupRemove m a) :=
  List.Nodup.sublist (keys_remove_sublist m a) h

theorem lookupGet_getD_pos {m : Accounts} {a : AccountId}
    (h : 0 < (lookupGet m a).getD 0) :
    lookupGet m a = some ((lookupGet m a).getD 0) := by
  cases hg : lookupGet m a with
  | none => rw [hg] at h; simp at h
  | some v => simp

/-! ## Branch characterizations of the operations -/

theorem internal_deposit_eq_ok {ft : FungibleToken} {a : AccountId}
    {amount balance : Nat} (hget : lookupGet ft.accounts a = some balance)
    (h1 : balance + amount < U128_LIMIT)
    (h2 : ft.total_supply + amount < U128_LIMIT) :
    internal_deposit ft a amount =
      .ok { ft with
            accounts := lookupInsert ft.accounts a (balance + amount)
            total_supply := ft.total_supply + amount } := by
  unfold internal_deposit
  simp only [hget, checked_add_of_lt h1, checked_add_of_lt h2]

theorem internal_deposit_ok {ft ft1 : FungibleToken} {a : AccountId}
    {amount : Nat} (h : internal_deposit ft a amount = .ok ft1) :
    ∃ balance, lookupGet ft.accounts a = some balance ∧
      balance + amount < U128_LIMIT ∧ ft.total_supply + amount < U128_LIMIT ∧
      ft1 = { ft with
              accounts := lookupInsert ft.accounts a (balance + amount)
              total_supply := ft.total_supply + amount } := by
  unfold internal_deposit at h
  cases hget : lookupGet ft.accounts a with
  | none => rw [hget] at h; exact Except.noConfusion h
  | some balance =>
    cases hadd : checked_add balance amount with
    | none => simp only [hget, hadd] at h; exact Except.noConfusion h
    | some nb =>
      cases htot : checked_add ft.total_supply amount with
      | none => simp only [hget, hadd, htot] at h; exact Except.noConfusion h
      | some nt =>
        simp only [hget, hadd, htot] at h
        obtain ⟨hnb, hlt1⟩ := checked_add_eq_some hadd
        obtain ⟨hnt, hlt2⟩ := checked_add_eq_some htot
        injection h with h
        exact ⟨balance, rfl, hlt1, hlt2, by rw [← h, hnb, hnt]⟩

theorem internal_withdraw_eq_ok {ft : FungibleToken} {a : AccountId}
    {amount balance : Nat} (hget : lookupGet ft.accounts a = some balance)
    (h1 : amount ≤ balance) (h2 : amount ≤ ft.total_supply) :
    internal_withdraw ft a amount =
      .ok { ft with
            accounts := lookupInsert ft.accounts a (balance - amount)
            total_supply := ft.total_supply - amount } := by
  unfold internal_withdraw
  simp only [hget, checked_sub_of_le h1, checked_sub_of_le h2]

theorem internal_withdraw_ok {ft ft1 : FungibleToken} {a : AccountId}
    {amount : Nat} (h : internal_withdraw ft a amount = .ok ft1) :
    ∃ balance, lookupGet ft.accounts a = some balance ∧
      amount ≤ balance ∧ amount ≤ ft.total_supply ∧
      ft1 = { ft with
              accounts := lookupInsert ft.accounts a (balance - amount)
              total_supply := ft.total_supply - amount } := by
  unfold internal_withdraw at h
  cases hget : lookupGet ft.accounts a with
  | none => rw [hget] at h; exact Except.noConfusion h
  | some balance =>
    cases hsub : checked_sub balance amount with
    | none => simp only [hget, hsub] at h; exact Except.noConfusion h
    | some nb =>
      cases htot : checked_sub ft.total_supply amount with
      | none => simp only [hget, hsub, htot] at h; exact Except.noConfusion h
      | some nt =>
        simp only [hget, hsub, htot] at h
        obtain ⟨hnb, hle1⟩ := checked_sub_eq_some hsub
        obtain ⟨hnt, hle2⟩ := checked_sub_eq_some htot
        injection h with h
        exact ⟨balance, rfl, hle1, hle2, by rw [← h, hnb, hnt]⟩

theorem internal_register_account_ok {ft ft1 : FungibleToken} {a : AccountId}
    (h : internal_register_account ft a = .ok ft1) :
    lookupGet ft.accounts a = none ∧
      ft1 = { ft with accounts := lookupInsert ft.accounts a 0 } := by
  unfold internal_register_account at h
  cases hget : lookupGet ft.accounts a with
  | none => rw [hget] at h; injection h with h; exact ⟨rfl, h.symm⟩
  | some balance => rw [hget] at h; exact Except.noConfusion h

theorem checked_add_eq_none_of {a b : Nat} (h : U128_LIMIT ≤ a + b) :
    checked_add a b = none := by
  unfold checked_add
  rw [if_neg (by omega)]

theorem checked_sub_eq_none_of {a b : Nat} (h : a < b) :
    checked_sub a b = none := by
  unfold checked_sub
  rw [if_neg (by omega)]

theorem resolve_noop_eq {ft : FungibleToken} {s r : AccountId} {amount : Nat}
    {res : HookResult}
    (h : resolve_unused_amount amount res = 0 ∨ (lookupGet ft.accounts r).getD 0 = 0) :
    ft_resolve_transfer ft s r amount res = .ok (ft, amount) := by
  unfold ft_resolve_transfer
  rcases h with h | h
  · simp [h]
  · by_cases hu : 0 < resolve_unused_amount amount res
    · simp [hu, h]
    · simp [hu]

theorem resolve_refund_eq {ft : FungibleToken} {s r : AccountId}
    {amount rb sb : Nat} {res : HookResult}
    (hu : 0 < resolve_unused_amount amount res)
    (hrb : lookupGet ft.accounts r = some rb) (hrb0 : 0 < rb)
    (hs : lookupGet (lookupInsert ft.accounts r
            (rb - min rb (resolve_unused_amount amount res))) s = some sb)
    (hov : sb + min rb (resolve_unused_amount amount res) < U128_LIMIT) :
    ft_resolve_transfer ft s r amount res =
      .ok ({ ft with
             accounts :=
               lookupInsert
                 (lookupInsert ft.accounts r
                   (rb - min rb (resolve_unused_amount amount res)))
                 s (sb + min rb (resolve_unused_amount amount res)) },
           amount - min rb (resolve_unused_amount amount res)) := by
  unfold ft_resolve_transfer
  simp only [hrb, Option.getD_some, if_pos hu, if_pos hrb0, hs,
    checked_add_of_lt hov]

theorem resolve_refund_overflow_eq {ft : FungibleToken} {s r : AccountId}
    {amount rb sb : Nat} {res : HookResult}
    (hu : 0 < resolve_unused_amount amount res)
    (hrb : lookupGet ft.accounts r = some rb) (hrb0 : 0 < rb)
    (hs : lookupGet (lookupInsert ft.accounts r
            (rb - min rb (resolve_unused_amount amount res))) s = some sb)
    (hov : U128_LIMIT ≤ sb + min rb (resolve_unused_amount amount res)) :
    ft_resolve_transfer ft s r amount res = .error "Balance overflow" := by
  unfold ft_resolve_transfer
  simp only [hrb, Option.getD_some, if_pos hu, if_pos hrb0, hs,
    checked_add_eq_none_of hov]

theorem resolve_burn_eq {ft : FungibleToken} {s r : AccountId}
    {amount rb : Nat} {res : HookResult}
    (hu : 0 < resolve_unused_amount amount res)
    (hrb : lookupGet ft.accounts r = some rb) (hrb0 : 0 < rb)
    (hs : lookupGet (lookupInsert ft.accounts r
            (rb - min rb (resolve_unused_amount amount res))) s = none)
    (hle : min rb (resolve_unused_amount amount res) ≤ ft.total_supply) :
    ft_resolve_transfer ft s r amount res =
      .ok ({ ft with
             accounts :=
               lookupInsert ft.accounts r
                 (rb - min rb (resolve_unused_amount amount res))
             total_supply :=
               ft.total_supply - min rb (resolve_unused_amount amount res) },
           amount) := by
  unfold ft_resolve_transfer
  simp only [hrb, Option.getD_some, if_pos hu, if_pos hrb0, hs,
    checked_sub_of_le hle]

theorem resolve_burn_underflow_eq {ft : FungibleToken} {s r : AccountId}
    {amount rb : Nat} {res : HookResult}
    (hu : 0 < resolve_unused_amount amount res)
    (hrb : lookupGet ft.accounts r = some rb) (hrb0 : 0 < rb)
    (hs : lookupGet (lookupInsert ft.accounts r
            (rb - min rb (resolve_unused_amount amount res))) s = none)
    (hlt : ft.total_supply < min rb (resolve_unused_amount amount res)) :
    ft_resolve_transfer ft s r amount res = .error "Total supply overflow" := by
  unfold ft_resolve_transfer
  simp only [hrb, Option.getD_some, if_pos hu, if_pos hrb0, hs,
    checked_sub_eq_none_of hlt]

/-! ## The ledger invariant -/

theorem except_bind_ok {α : Type} {x : Except String α} {f : α → Except String α}
    {b : α} (h : (x >>= f) = .ok b) : ∃ a, x = .ok a ∧ f a = .ok b := by
  cases x with
  | error e => exact absurd h (by simp [Bind.bind, Except.bind])
  | ok a => exact ⟨a, rfl, by simpa [Bind.bind, Except.bind] using h⟩

theorem LedgerInv_internal_deposit {ft ft1 : FungibleToken} {a : AccountId}
    {amount : Nat} (hinv : LedgerInv ft) (h : internal_deposit ft a amount = .ok ft1) :
    LedgerInv ft1 := by
  obtain ⟨hnd, hts, hlt⟩ := hinv
  obtain ⟨balance, hget, h1, h2, rfl⟩ := internal_deposit_ok h
  have hsum := sumBalances_insert_of_get (balance + amount) hget
  exact ⟨keysNodup_insert _ _ _ hnd, by simp only; omega, by simp only; omega⟩

theorem LedgerInv_internal_withdraw {ft ft1 : FungibleToken} {a : AccountId}
    {amount : Nat} (hinv : LedgerInv ft) (h : internal_withdraw ft a amount = .ok ft1) :
    LedgerInv ft1 := by
  obtain ⟨hnd, hts, hlt⟩ := hinv
  obtain ⟨balance, hget, h1, h2, rfl⟩ := internal_withdraw_ok h
  have hsum := sumBalances_insert_of_get (balance - amount) hget
  have hble := lookupGet_le_sum hget
  exact ⟨keysNodup_insert _ _ _ hnd, by simp only; omega, by simp only; omega⟩

theorem LedgerInv_internal_transfer {ft ft1 : FungibleToken} {s r : AccountId}
    {amount : Nat} (hinv : LedgerInv ft) (h : internal_transfer ft s r amount = .ok ft1) :
    LedgerInv ft1 := by
  unfold internal_transfer at h
  by_cases hsr : s = r
  · rw [if_pos hsr] at h
    exact Except.noConfusion h
  · rw [if_neg hsr] at h
    by_cases h0 : amount = 0
    · rw [if_pos h0] at h
      exact Except.noConfusion h
    · rw [if_neg h0] at h
      obtain ⟨ftm, hw, hd⟩ := except_bind_ok h
      exact LedgerInv_internal_deposit (LedgerInv_internal_withdraw hinv hw) hd

theorem LedgerInv_internal_register_account {ft ft1 : FungibleToken} {a : AccountId}
    (hinv : LedgerInv ft) (h : internal_register_account ft a = .ok ft1) : LedgerInv ft1 := by
  obtain ⟨hnd, hts, hlt⟩ := hinv
  obtain ⟨hget, rfl⟩ := internal_register_account_ok h
  have hsum := sumBalances_insert_of_none 0 hget
  exact ⟨keysNodup_insert _ _ _ hnd, by simp only; omega, by simp only; omega⟩

theorem LedgerInv_ft_transfer {ft ft1 : FungibleToken} {p r : AccountId}
    {d amount : Nat} (hinv : LedgerInv ft) (h : ft_transfer ft p d r amount = .ok ft1) :
    LedgerInv ft1 := by
  unfold ft_transfer at h
  by_cases hd : d = 1
  · rw [if_pos hd] at h
    exact LedgerInv_internal_transfer hinv h
  · rw [if_neg hd] at h
    exact Except.noConfusion h

theorem LedgerInv_ft_transfer_call {ft ft1 : FungibleToken} {p r : AccountId}
    {d amount : Nat} (hinv : LedgerInv ft)
    (h : ft_transfer_call ft p d r amount = .ok ft1) : LedgerInv ft1 := by
  unfold ft_transfer_call at h
  by_cases hd : d = 1
  · rw [if_pos hd] at h
    exact LedgerInv_internal_transfer hinv h
  · rw [if_neg hd] at h
    exact Except.noConfusion h

theorem storage_deposit_ok {ft ft1 : FungibleToken} {p : AccountId}
    {acc : Option AccountId} {d bc : Nat} {b : AccountStorageBalance}
    (h : storage_deposit ft p acc d bc = .ok (ft1, b)) :
    internal_register_account ft (acc.getD p) = .ok ft1 := by
  unfold storage_deposit at h
  by_cases hd : d = storage_minimum_balance ft bc
  · rw [if_pos hd] at h
    cases hreg : internal_register_account ft (acc.getD p) with
    | error e => simp only [hreg] at h; exact Except.noConfusion h
    | ok ft2 =>
      simp only [hreg] at h
      injection h with h
      injection h with h1 h2
      rw [h1]
  · rw [if_neg hd] at h
    exact Except.noConfusion h

theorem storage_withdraw_ok {ft ft1 : FungibleToken} {p : AccountId}
    {d amt bc : Nat} {b : AccountStorageBalance}
    (h : storage_withdraw ft p d amt bc = .ok (ft1, b)) :
    lookupGet ft.accounts p = some 0 ∧
      ft1 = { ft with accounts := lookupRemove ft.accounts p } := by
  unfold storage_withdraw at h
  by_cases hd : d = 1
  · rw [if_pos hd] at h
    by_cases hamt : amt = storage_minimum_balance ft bc
    · rw [if_pos hamt] at h
      cases hget : lookupGet ft.accounts p with
      | none => rw [hget] at h; exact Except.noConfusion h
      | some balance =>
        simp only [hget] at h
        by_cases hb : 0 < balance
        · rw [if_pos hb] at h
          exact Except.noConfusion h
        · rw [if_neg hb] at h
          injection h with h
          injection h with h1 h2
          have : balance = 0 := by omega
          subst this
          exact ⟨rfl, h1.symm⟩
    · rw [if_neg hamt] at h
      exact Except.noConfusion h
  · rw [if_neg hd] at h
    exact Except.noConfusion h

theorem LedgerInv_storage_deposit {ft ft1 : FungibleToken} {p : AccountId}
    {acc : Option AccountId} {d bc : Nat} {b : AccountStorageBalance}
    (hinv : LedgerInv ft) (h : storage_deposit ft p acc d bc = .ok (ft1, b)) :
    LedgerInv ft1 :=
  LedgerInv_internal_register_account hinv (storage_deposit_ok h)

theorem LedgerInv_storage_withdraw {ft ft1 : FungibleToken} {p : AccountId}
    {d amt bc : Nat} {b : AccountStorageBalance}
    (hinv : LedgerInv ft) (h : storage_withdraw ft p d amt bc = .ok (ft1, b)) :
    LedgerInv ft1 := by
  obtain ⟨hnd, hts, hlt⟩ := hinv
  obtain ⟨hget, rfl⟩ := storage_withdraw_ok h
  have hsum := sumBalances_remove_of_get hget
  exact ⟨keysNodup_remove _ _ hnd, by simp only; omega, by simp only; omega⟩

theorem LedgerInv_ft_resolve_transfer {ft ft1 : FungibleToken} {s r : AccountId}
    {amount used : Nat} {res : HookResult} (hinv : LedgerInv ft)
    (h : ft_resolve_transfer ft s r amount res = .ok (ft1, used)) :
    LedgerInv ft1 := by
  obtain ⟨hnd, hts, hlt⟩ := hinv
  by_cases hu : 0 < resolve_unused_amount amount res
  case neg =>
    rw [resolve_noop_eq (Or.inl (by omega))] at h
    injection h with h
    injection h with h1 h2
    rw [← h1]
    exact ⟨hnd, hts, hlt⟩
  case pos =>
    by_cases hrb0 : 0 < (lookupGet ft.accounts r).getD 0
    case neg =>
      rw [resolve_noop_eq (Or.inr (by omega))] at h
      injection h with h
      injection h with h1 h2
      rw [← h1]
      exact ⟨hnd, hts, hlt⟩
    case pos =>
      have hrb := lookupGet_getD_pos hrb0
      have hrble : min ((lookupGet ft.accounts r).getD 0)
          (resolve_unused_amount amount res) ≤ (lookupGet ft.accounts r).getD 0 :=
        Nat.min_le_left _ _
      have hrbsum := lookupGet_le_sum hrb
      have hsum1 := sumBalances_insert_of_get
        ((lookupGet ft.accounts r).getD 0 -
          min ((lookupGet ft.accounts r).getD 0) (resolve_unused_amount amount res)) hrb
      cases hs : lookupGet (lookupInsert ft.accounts r
          ((lookupGet ft.accounts r).getD 0 -
            min ((lookupGet ft.accounts r).getD 0)
              (resolve_unused_amount amount res))) s with
      | some sb =>
        by_cases hov : sb + min ((lookupGet ft.accounts r).getD 0)
            (resolve_unused_amount amount res) < U128_LIMIT
        · rw [resolve_refund_eq hu hrb hrb0 hs hov] at h
          injection h with h
          injection h with h1 h2
          rw [← h1]
          have hsum2 := sumBalances_insert_of_get
            (sb + min ((lookupGet ft.accounts r).getD 0)
              (resolve_unused_amount amount res)) hs
          refine ⟨keysNodup_insert _ _ _ (keysNodup_insert _ _ _ hnd), ?_, ?_⟩
          · simp only
            omega
          · simp only
            omega
        · rw [resolve_refund_overflow_eq hu hrb hrb0 hs (by omega)] at h
          exact Except.noConfusion h
      | none =>
        by_cases hle : min ((lookupGet ft.accounts r).getD 0)
            (resolve_unused_amount amount res) ≤ ft.total_supply
        · rw [resolve_burn_eq hu hrb hrb0 hs hle] at h
          injection h with h
          injection h with h1 h2
          rw [← h1]
          refine ⟨keysNodup_insert _ _ _ hnd, ?_, ?_⟩
          · simp only
            omega
          · simp only
            omega
        · rw [resolve_burn_underflow_eq hu hrb hrb0 hs (by omega)] at h
          exact Except.noConfusion h

theorem LedgerInv_applyOp {ft : FungibleToken} (op : Op) (hinv : LedgerInv ft) :
    LedgerInv (applyOp ft op) := by
  cases op with
  | transfer p d r a =>
    show LedgerInv (commit ft (ft_transfer ft p d r a))
    cases hres : ft_transfer ft p d r a with
    | ok ft1 => exact LedgerInv_ft_transfer hinv hres
    | error e => exact hinv
  | transferCall p d r a =>
    show LedgerInv (commit ft (ft_transfer_call ft p d r a))
    cases hres : ft_transfer_call ft p d r a with
    | ok ft1 => exact LedgerInv_ft_transfer_call hinv hres
    | error e => exact hinv
  | resolveTransfer s r a res =>
    show LedgerInv (ft_resolve_transfer_commit ft s r a res)
    unfold ft_resolve_transfer_commit
    cases hres : ft_resolve_transfer ft s r a res with
    | ok p =>
      obtain ⟨ft1, used⟩ := p
      exact LedgerInv_ft_resolve_transfer hinv hres
    | error e => exact hinv
  | storageDeposit p acc d bc =>
    simp only [applyOp]
    cases hres : storage_deposit ft p acc d bc with
    | ok pr =>
      obtain ⟨ft1, bal⟩ := pr
      exact LedgerInv_storage_deposit hinv hres
    | error e => exact hinv
  | storageWithdraw p d a bc =>
    simp only [applyOp]
    cases hres : storage_withdraw ft p d a bc with
    | ok pr =>
      obtain ⟨ft1, bal⟩ := pr
      exact LedgerInv_storage_withdraw hinv hres
    | error e => exact hinv

theorem LedgerInv_initialState (u : Nat) : LedgerInv (initialState u) :=
  ⟨List.nodup_nil, rfl, by norm_num [U128_LIMIT, initialState]⟩

theorem LedgerInv_reachable {ft : FungibleToken} (h : Reachable ft) :
    LedgerInv ft := by
  induction h with
  | init u => exact LedgerInv_initialState u
  | step ft op hft ih => exact LedgerInv_applyOp op ih

theorem resolve_ok_cases {ft ft1 : FungibleToken} {s r : AccountId}
    {amount used : Nat} {res : HookResult}
    (h : ft_resolve_transfer ft s r amount res = .ok (ft1, used)) :
    used ≤ amount ∧ ft1.total_supply ≤ ft.total_supply := by
  by_cases hu : 0 < resolve_unused_amount amount res
  case neg =>
    rw [resolve_noop_eq (Or.inl (by omega))] at h
    injection h with h
    injection h with h1 h2
    exact ⟨by omega, by rw [← h1]⟩
  case pos =>
    by_cases hrb0 : 0 < (lookupGet ft.accounts r).getD 0
    case neg =>
      rw [resolve_noop_eq (Or.inr (by omega))] at h
      injection h with h
      injection h with h1 h2
      exact ⟨by omega, by rw [← h1]⟩
    case pos =>
      have hrb := lookupGet_getD_pos hrb0
      cases hs : lookupGet (lookupInsert ft.accounts r
          ((lookupGet ft.accounts r).getD 0 -
            min ((lookupGet ft.accounts r).getD 0)
              (resolve_unused_amount amount res))) s with
      | some sb =>
        by_cases hov : sb + min ((lookupGet ft.accounts r).getD 0)
            (resolve_unused_amount amount res) < U128_LIMIT
        · rw [resolve_refund_eq hu hrb hrb0 hs hov] at h
          injection h with h
          injection h with h1 h2
          refine ⟨by omega, ?_⟩
          rw [← h1]
        · rw [resolve_refund_overflow_eq hu hrb hrb0 hs (by omega)] at h
          exact Except.noConfusion h
      | none =>
        by_cases hle : min ((lookupGet ft.accounts r).getD 0)
            (resolve_unused_amount amount res) ≤ ft.total_supply
        · rw [resolve_burn_eq hu hrb hrb0 hs hle] at h
          injection h with h
          injection h with h1 h2
          refine ⟨by omega, ?_⟩
          rw [← h1]
          exact Nat.sub_le _ _
        · rw [resolve_burn_underflow_eq hu hrb hrb0 hs (by omega)] at h
          exact Except.noConfusion h

/-! ## Claim theorems -/

/-- C1: in every reachable state of the FungibleToken (any sequence of the
public operations `ft_transfer`, `ft_transfer_call`, `ft_resolve_transfer`,
`storage_deposit`, `storage_withdraw` from the freshly constructed
contract), the ledger holds at most one entry per account and
`total_supply` equals the sum of the balances of all registered accounts;
in particular every public operation, including both the refund and the
burn branch of the resolution callback, preserves this equality. -/
theorem C1_reachable_total_supply_eq_sum {ft : FungibleToken}
    (h : Reachable ft) :
    keysNodup ft.accounts ∧ ft.total_supply = sumBalances ft.accounts := by
  obtain ⟨hnd, hts, _⟩ := LedgerInv_reachable h
  exact ⟨hnd, hts⟩

theorem C1_witness :
    keysNodup (initialState 64).accounts ∧
      (initialState 64).total_supply = sumBalances (initialState 64).accounts :=
  C1_reachable_total_supply_eq_sum (Reachable.init 64)

/-- C2: the unused amount computed by `ft_resolve_transfer` is the full
`amount` when the receiver hook failed or returned an unparseable payload,
and `min amount reported_unused` when it reported `reported_unused`; for
every outcome it never exceeds `amount`. -/
theorem C2_resolve_unused_amount_spec (amount reported_unused : Nat) :
    resolve_unused_amount amount (.Successful none) = amount ∧
      resolve_unused_amount amount .Failed = amount ∧
      resolve_unused_amount amount (.Successful (some reported_unused)) =
        min amount reported_unused ∧
      ∀ res : HookResult, resolve_unused_amount amount res ≤ amount := by
  refine ⟨rfl, rfl, rfl, ?_⟩
  intro res
  cases res with
  | Failed => exact Nat.le_refl _
  | Successful parsed =>
    cases parsed with
    | none => exact Nat.le_refl _
    | some u => exact Nat.min_le_left _ _

/-- C9: whatever the input state and the promise outcome, the used amount
returned by `ft_resolve_transfer` is at most the transferred `amount`. -/
theorem C9_resolve_used_le_amount {ft ft1 : FungibleToken} {s r : AccountId}
    {amount used : Nat} {res : HookResult}
    (h : ft_resolve_transfer ft s r amount res = .ok (ft1, used)) :
    used ≤ amount :=
  (resolve_ok_cases h).1

theorem C9_witness :
    ft_resolve_transfer sampleState "alice" "bob" 50
        (HookResult.Successful (some 20)) =
      .ok ({ accounts := [("alice", 120), ("bob", 30)], total_supply := 150,
             account_storage_usage := 0 }, 30) ∧
      (30 : Nat) ≤ 50 :=
  ⟨by rfl,
   @C9_resolve_used_le_amount sampleState
     { accounts := [("alice", 120), ("bob", 30)], total_supply := 150,
       account_storage_usage := 0 } "alice" "bob" 50 30
     (HookResult.Successful (some 20)) (by rfl)⟩

/-- C10: `ft_resolve_transfer` never increases `total_supply`: whatever the
input state and the promise outcome, the supply left behind by the
resolution invocation is at most the supply before it. -/
theorem C10_resolve_supply_le (ft : FungibleToken) (s r : AccountId)
    (amount : Nat) (res : HookResult) :
    (ft_resolve_transfer_commit ft s r amount res).total_supply ≤
      ft.total_supply := by
  unfold ft_resolve_transfer_commit
  cases hres : ft_resolve_transfer ft s r amount res with
  | ok p =>
    obtain ⟨ft1, used⟩ := p
    exact (resolve_ok_cases hres).2
  | error e => exact Nat.le_refl _

theorem internal_deposit_balance_overflow_eq {ft : FungibleToken}
    {a : AccountId} {amount balance : Nat}
    (hget : lookupGet ft.accounts a = some balance)
    (h : U128_LIMIT ≤ balance + amount) :
    internal_deposit ft a amount = .error "Balance overflow" := by
  unfold internal_deposit
  simp only [hget, checked_add_eq_none_of h]

theorem internal_deposit_supply_overflow_eq {ft : FungibleToken}
    {a : AccountId} {amount balance : Nat}
    (hget : lookupGet ft.accounts a = some balance)
    (hb : balance + amount < U128_LIMIT)
    (h : U128_LIMIT ≤ ft.total_supply + amount) :
    internal_deposit ft a amount = .error "Total supply overflow" := by
  unfold internal_deposit
  simp only [hget, checked_add_of_lt hb, checked_add_eq_none_of h]

/-- C5: a deposit (`internal_deposit`) on a registered account whose new
balance or new total supply would leave the `u128` range aborts with an
overflow panic, and the invocation leaves every balance and the total
supply unchanged, even though the source writes the new balance before the
total-supply check (the abort reverts that write). -/
theorem C5_deposit_overflow_reverts {ft : FungibleToken} {a : AccountId}
    {amount balance : Nat} (hget : lookupGet ft.accounts a = some balance)
    (hover : U128_LIMIT ≤ balance + amount ∨
      U128_LIMIT ≤ ft.total_supply + amount) :
    (∃ e, internal_deposit ft a amount = .error e) ∧
      commit ft (internal_deposit ft a amount) = ft := by
  by_cases hb : balance + amount < U128_LIMIT
  · have hts : U128_LIMIT ≤ ft.total_supply + amount := by
      rcases hover with h | h
      · omega
      · exact h
    rw [internal_deposit_supply_overflow_eq hget hb hts]
    exact ⟨⟨_, rfl⟩, rfl⟩
  · rw [internal_deposit_balance_overflow_eq hget (by omega)]
    exact ⟨⟨_, rfl⟩, rfl⟩

theorem C5_witness :
    lookupGet maxState.accounts "alice" = some (2 ^ 128 - 1) ∧
      (U128_LIMIT ≤ (2 ^ 128 - 1) + 1 ∨ U128_LIMIT ≤ maxState.total_supply + 1) ∧
      (∃ e, internal_deposit maxState "alice" 1 = .error e) ∧
      commit maxState (internal_deposit maxState "alice" 1) = maxState :=
  ⟨by rfl, by left; unfold U128_LIMIT; omega,
   C5_deposit_overflow_reverts (by rfl) (by left; unfold U128_LIMIT; omega)⟩

/-- C6: `internal_transfer` is atomic: either it succeeds and the sender
balance drops by `amount` while the receiver balance rises by `amount`
(total supply and all other balances unchanged), or it aborts (self
transfer, zero amount, unregistered account, insufficient balance or
overflow) and the invocation leaves the whole state unchanged. -/
theorem C6_transfer_atomic (ft : FungibleToken) (s r : AccountId) (amount : Nat) :
    ((s = r → internal_transfer ft s r amount =
        .error "Sender and receiver should be different") ∧
      (s ≠ r → amount = 0 → internal_transfer ft s r amount =
        .error "The amount should be a positive number")) ∧
    ((∃ sb rb ft1, lookupGet ft.accounts s = some sb ∧
        lookupGet ft.accounts r = some rb ∧ amount ≤ sb ∧
        internal_transfer ft s r amount = .ok ft1 ∧
        lookupGet ft1.accounts s = some (sb - amount) ∧
        lookupGet ft1.accounts r = some (rb + amount) ∧
        ft1.total_supply = ft.total_supply ∧
        (∀ a, a ≠ s → a ≠ r → lookupGet ft1.accounts a = lookupGet ft.accounts a)) ∨
      ((∃ e, internal_transfer ft s r amount = .error e) ∧
        commit ft (internal_transfer ft s r amount) = ft)) := by
  refine ⟨⟨?_, ?_⟩, ?_⟩
  · intro hsr
    unfold internal_transfer
    rw [if_pos hsr]
  · intro hne h0
    unfold internal_transfer
    rw [if_neg hne, if_pos h0]
  · cases hres : internal_transfer ft s r amount with
    | error e => exact Or.inr ⟨⟨e, rfl⟩, rfl⟩
    | ok ft1c =>
      left
      unfold internal_transfer at hres
      by_cases hsr : s = r
      · rw [if_pos hsr] at hres
        exact Except.noConfusion hres
      · rw [if_neg hsr] at hres
        by_cases h0 : amount = 0
        · rw [if_pos h0] at hres
          exact Except.noConfusion hres
        · rw [if_neg h0] at hres
          obtain ⟨ftm, hw, hd⟩ := except_bind_ok hres
          obtain ⟨sb, hs, hsble, htsle, rfl⟩ := internal_withdraw_ok hw
          obtain ⟨rb, hr, hrlt, htslt, hft1⟩ := internal_deposit_ok hd
          have hrs : r ≠ s := fun hc => hsr hc.symm
          have hr0 : lookupGet ft.accounts r = some rb := by
            rw [← lookupGet_insert_ne ft.accounts s r (sb - amount) hrs]
            exact hr
          refine ⟨sb, rb, ft1c, hs, hr0, hsble, rfl, ?_, ?_, ?_, ?_⟩
          · rw [hft1]
            simp only
            rw [lookupGet_insert_ne _ r s _ hsr, lookupGet_insert_self]
          · rw [hft1]
            simp only
            rw [lookupGet_insert_self]
          · rw [hft1]
            simp only
            omega
          · intro a has har
            rw [hft1]
            simp only
            rw [lookupGet_insert_ne _ r a _ har, lookupGet_insert_ne _ s a _ has]

/-- C7: `storage_withdraw` by a registered predecessor holding a nonzero
token balance aborts with the positive-balance panic, and the invocation
leaves the account registered with its balance unchanged, even though the
source removes the ledger entry before checking the balance (the abort
reverts the removal). -/
theorem C7_storage_withdraw_nonzero_reverts {ft : FungibleToken}
    {p : AccountId} {balance bc : Nat}
    (hget : lookupGet ft.accounts p = some balance) (hb : 0 < balance) :
    storage_withdraw ft p 1 (storage_minimum_balance ft bc) bc =
        .error "The account has positive token balance" ∧
      storage_withdraw_commit ft p 1 (storage_minimum_balance ft bc) bc = ft ∧
      lookupGet (storage_withdraw_commit ft p 1
          (storage_minimum_balance ft bc) bc).accounts p = some balance := by
  have herr : storage_withdraw ft p 1 (storage_minimum_balance ft bc) bc =
      .error "The account has positive token balance" := by
    unfold storage_withdraw
    rw [if_pos rfl, if_pos rfl]
    simp only [hget, if_pos hb]
  refine ⟨herr, ?_, ?_⟩
  · unfold storage_withdraw_commit
    rw [herr]
  · unfold storage_withdraw_commit
    rw [herr]
    exact hget

theorem C7_witness :
    lookupGet sampleState.accounts "alice" = some 100 ∧ (0 : Nat) < 100 ∧
      (storage_withdraw sampleState "alice" 1
          (storage_minimum_balance sampleState 0) 0 =
        .error "The account has positive token balance" ∧
      storage_withdraw_commit sampleState "alice" 1
          (storage_minimum_balance sampleState 0) 0 = sampleState ∧
      lookupGet (storage_withdraw_commit sampleState "alice" 1
          (storage_minimum_balance sampleState 0) 0).accounts "alice" = some 100) :=
  ⟨by rfl, by omega, C7_storage_withdraw_nonzero_reverts (by rfl) (by omega)⟩

/-- C3: when the resolution callback runs with the sender still registered,
the refund is `min (receiver's balance at resolution time) unused`: the
receiver balance drops by exactly the refund, the sender balance rises by
exactly the refund, the used amount reported is `amount - refund`, the
total supply and all other balances are unchanged; when the unused amount
is zero or the receiver balance is zero the state is unchanged and the
full `amount` is reported as used. -/
theorem C3_resolve_refund_spec {ft : FungibleToken} {s r : AccountId}
    {amount sb : Nat} {res : HookResult} (hinv : LedgerInv ft)
    (hne : s ≠ r) (hs : lookupGet ft.accounts s = some sb) :
    ∃ ft1, ft_resolve_transfer ft s r amount res =
        .ok (ft1, amount - min ((lookupGet ft.accounts r).getD 0)
                     (resolve_unused_amount amount res)) ∧
      ft1.total_supply = ft.total_supply ∧
      lookupGet ft1.accounts s =
        some (sb + min ((lookupGet ft.accounts r).getD 0)
                    (resolve_unused_amount amount res)) ∧
      (lookupGet ft1.accounts r).getD 0 =
        (lookupGet ft.accounts r).getD 0 -
          min ((lookupGet ft.accounts r).getD 0) (resolve_unused_amount amount res) ∧
      (∀ a, a ≠ s → a ≠ r → lookupGet ft1.accounts a = lookupGet ft.accounts a) ∧
      ((resolve_unused_amount amount res = 0 ∨
          (lookupGet ft.accounts r).getD 0 = 0) → ft1 = ft) := by
  obtain ⟨hnd, hts, hlt⟩ := hinv
  by_cases hu : 0 < resolve_unused_amount amount res
  case neg =>
    have h0 : resolve_unused_amount amount res = 0 := by omega
    refine ⟨ft, ?_, rfl, ?_, ?_, fun a _ _ => rfl, fun _ => rfl⟩
    · rw [resolve_noop_eq (Or.inl h0), h0, Nat.min_zero, Nat.sub_zero]
    · rw [h0, Nat.min_zero, Nat.add_zero]
      exact hs
    · rw [h0, Nat.min_zero, Nat.sub_zero]
  case pos =>
    by_cases hrb0 : 0 < (lookupGet ft.accounts r).getD 0
    case neg =>
      have h0 : (lookupGet ft.accounts r).getD 0 = 0 := by omega
      refine ⟨ft, ?_, rfl, ?_, ?_, fun a _ _ => rfl, fun _ => rfl⟩
      · rw [resolve_noop_eq (Or.inr h0), h0, Nat.zero_min, Nat.sub_zero]
      · rw [h0, Nat.zero_min, Nat.add_zero]
        exact hs
      · rw [h0, Nat.zero_min, Nat.sub_zero]
    case pos =>
      have hrb := lookupGet_getD_pos hrb0
      have hs1 : lookupGet (lookupInsert ft.accounts r
          ((lookupGet ft.accounts r).getD 0 -
            min ((lookupGet ft.accounts r).getD 0)
              (resolve_unused_amount amount res))) s = some sb := by
        rw [lookupGet_insert_ne _ r s _ hne]
        exact hs
      have hpair := lookupGet_pair_le_sum hne hs hrb
      have hmin : min ((lookupGet ft.accounts r).getD 0)
          (resolve_unused_amount amount res) ≤
            (lookupGet ft.accounts r).getD 0 := Nat.min_le_left _ _
      have hov : sb + min ((lookupGet ft.accounts r).getD 0)
          (resolve_unused_amount amount res) < U128_LIMIT := by omega
      refine ⟨_, resolve_refund_eq hu hrb hrb0 hs1 hov, rfl, ?_, ?_, ?_, ?_⟩
      · exact lookupGet_insert_self _ _ _
      · rw [lookupGet_insert_ne _ s r _ (fun hc => hne hc.symm),
          lookupGet_insert_self]
        rfl
      · intro a has har
        simp only
        rw [lookupGet_insert_ne _ s a _ has, lookupGet_insert_ne _ r a _ har]
      · intro hc
        rcases hc with hc | hc
        · exact absurd hc (by omega)
        · exact absurd hc (by omega)

theorem C3_witness :
    ∃ ft1, ft_resolve_transfer sampleState "alice" "bob" 50
        (HookResult.Successful (some 20)) =
        .ok (ft1, 50 - min ((lookupGet sampleState.accounts "bob").getD 0)
                     (resolve_unused_amount 50 (HookResult.Successful (some 20)))) ∧
      ft1.total_supply = sampleState.total_supply ∧
      lookupGet ft1.accounts "alice" =
        some (100 + min ((lookupGet sampleState.accounts "bob").getD 0)
                    (resolve_unused_amount 50 (HookResult.Successful (some 20)))) ∧
      (lookupGet ft1.accounts "bob").getD 0 =
        (lookupGet sampleState.accounts "bob").getD 0 -
          min ((lookupGet sampleState.accounts "bob").getD 0)
            (resolve_unused_amount 50 (HookResult.Successful (some 20))) ∧
      (∀ a, a ≠ "alice" → a ≠ "bob" →
        lookupGet ft1.accounts a = lookupGet sampleState.accounts a) ∧
      ((resolve_unused_amount 50 (HookResult.Successful (some 20)) = 0 ∨
          (lookupGet sampleState.accounts "bob").getD 0 = 0) →
        ft1 = sampleState) :=
  C3_resolve_refund_spec (by decide) (by decide) (by rfl)

/-- C4: when the resolution callback finds a positive refund but the sender
account is no longer registered, the refund is debited from the receiver
and burned from the total supply (which drops by exactly the refund), no
account is credited, and the full `amount` is reported as used. -/
theorem C4_resolve_burn_spec {ft : FungibleToken} {s r : AccountId}
    {amount rb : Nat} {res : HookResult} (hinv : LedgerInv ft)
    (hs : lookupGet ft.accounts s = none)
    (hrb : lookupGet ft.accounts r = some rb) (hrb0 : 0 < rb)
    (hu : 0 < resolve_unused_amount amount res) :
    ∃ ft1, ft_resolve_transfer ft s r amount res = .ok (ft1, amount) ∧
      ft1.total_supply + min rb (resolve_unused_amount amount res) =
        ft.total_supply ∧
      lookupGet ft1.accounts r =
        some (rb - min rb (resolve_unused_amount amount res)) ∧
      lookupGet ft1.accounts s = none ∧
      (∀ a, a ≠ r → lookupGet ft1.accounts a = lookupGet ft.accounts a) := by
  obtain ⟨hnd, hts, hlt⟩ := hinv
  have hne : s ≠ r := by
    intro hc
    rw [hc, hrb] at hs
    exact Option.noConfusion hs
  have hs1 : lookupGet (lookupInsert ft.accounts r
      (rb - min rb (resolve_unused_amount amount res))) s = none := by
    rw [lookupGet_insert_ne _ r s _ hne]
    exact hs
  have hrbsum := lookupGet_le_sum hrb
  have hmin : min rb (resolve_unused_amount amount res) ≤ rb :=
    Nat.min_le_left _ _
  have hle : min rb (resolve_unused_amount amount res) ≤ ft.total_supply := by
    omega
  refine ⟨_, resolve_burn_eq hu hrb hrb0 hs1 hle, ?_, ?_, ?_, ?_⟩
  · simp only
    omega
  · exact lookupGet_insert_self _ _ _
  · exact hs1
  · intro a har
    simp only
    rw [lookupGet_insert_ne _ r a _ har]

theorem C4_witness :
    ∃ ft1, ft_resolve_transfer burnState "alice" "bob" 50
        (HookResult.Successful (some 20)) = .ok (ft1, 50) ∧
      ft1.total_supply + min 50 (resolve_unused_amount 50
          (HookResult.Successful (some 20))) = burnState.total_supply ∧
      lookupGet ft1.accounts "bob" =
        some (50 - min 50 (resolve_unused_amount 50
          (HookResult.Successful (some 20)))) ∧
      lookupGet ft1.accounts "alice" = none ∧
      (∀ a, a ≠ "bob" →
        lookupGet ft1.accounts a = lookupGet burnState.accounts a) :=
  C4_resolve_burn_spec (by decide) (by rfl) (by rfl) (by decide) (by decide)

/-- C8: the ledger effect of `ft_resolve_transfer` is a composition of the
transfer-engine primitives: in the refund branch it equals
`internal_withdraw` of the refund from the receiver followed by
`internal_deposit` of the refund to the sender, in the burn branch it
equals that `internal_withdraw` alone, and in the remaining cases the
callback leaves the ledger untouched. -/
theorem C8_resolve_refines_primitives {ft : FungibleToken} {s r : AccountId}
    {amount : Nat} {res : HookResult} (hinv : LedgerInv ft) (hne : s ≠ r) :
    (∀ rb, lookupGet ft.accounts r = some rb → 0 < rb →
      0 < resolve_unused_amount amount res →
      ((∀ sb, lookupGet ft.accounts s = some sb →
        ∃ ftm ft1,
          internal_withdraw ft r
              (min rb (resolve_unused_amount amount res)) = .ok ftm ∧
          internal_deposit ftm s
              (min rb (resolve_unused_amount amount res)) = .ok ft1 ∧
          ft_resolve_transfer_commit ft s r amount res = ft1) ∧
       (lookupGet ft.accounts s = none →
        ∃ ft1,
          internal_withdraw ft r
              (min rb (resolve_unused_amount amount res)) = .ok ft1 ∧
          ft_resolve_transfer_commit ft s r amount res = ft1))) ∧
    ((resolve_unused_amount amount res = 0 ∨
        (lookupGet ft.accounts r).getD 0 = 0) →
      ft_resolve_transfer_commit ft s r amount res = ft) := by
  obtain ⟨hnd, hts, hlt⟩ := hinv
  constructor
  · intro rb hrb hrb0 hu
    have hrble : min rb (resolve_unused_amount amount res) ≤ rb :=
      Nat.min_le_left _ _
    have hrbsum := lookupGet_le_sum hrb
    have hle : min rb (resolve_unused_amount amount res) ≤ ft.total_supply := by
      omega
    have hw := internal_withdraw_eq_ok hrb hrble hle
    constructor
    · intro sb hsb
      have hs1 : lookupGet (lookupInsert ft.accounts r
          (rb - min rb (resolve_unused_amount amount res))) s = some sb := by
        rw [lookupGet_insert_ne _ r s _ hne]
        exact hsb
      have hpair := lookupGet_pair_le_sum hne hsb hrb
      have hov : sb + min rb (resolve_unused_amount amount res) <
          U128_LIMIT := by omega
      have hgetm : lookupGet ({ ft with
          accounts := lookupInsert ft.accounts r
            (rb - min rb (resolve_unused_amount amount res))
          total_supply := ft.total_supply -
            min rb (resolve_unused_amount amount res) } :
            FungibleToken).accounts s = some sb := hs1
      have htsm : ({ ft with
          accounts := lookupInsert ft.accounts r
            (rb - min rb (resolve_unused_amount amount res))
          total_supply := ft.total_supply -
            min rb (resolve_unused_amount amount res) } :
            FungibleToken).total_supply +
          min rb (resolve_unused_amount amount res) < U128_LIMIT := by
        simp only
        omega
      have hd := internal_deposit_eq_ok hgetm hov htsm
      refine ⟨_, _, hw, hd, ?_⟩
      unfold ft_resolve_transfer_commit
      simp only [resolve_refund_eq hu hrb hrb0 hs1 hov]
      simp only [Nat.sub_add_cancel hle]
    · intro hsn
      have hs1 : lookupGet (lookupInsert ft.accounts r
          (rb - min rb (resolve_unused_amount amount res))) s = none := by
        rw [lookupGet_insert_ne _ r s _ hne]
        exact hsn
      refine ⟨_, hw, ?_⟩
      unfold ft_resolve_transfer_commit
      simp only [resolve_burn_eq hu hrb hrb0 hs1 hle]
  · intro hc
    unfold ft_resolve_transfer_commit
    simp only [resolve_noop_eq hc]

theorem C8_witness :
    (∀ rb, lookupGet sampleState.accounts "bob" = some rb → 0 < rb →
      0 < resolve_unused_amount 50 (HookResult.Successful (some 20)) →
      ((∀ sb, lookupGet sampleState.accounts "alice" = some sb →
        ∃ ftm ft1,
          internal_withdraw sampleState "bob"
              (min rb (resolve_unused_amount 50
                (HookResult.Successful (some 20)))) = .ok ftm ∧
          internal_deposit ftm "alice"
              (min rb (resolve_unused_amount 50
                (HookResult.Successful (some 20)))) = .ok ft1 ∧
          ft_resolve_transfer_commit sampleState "alice" "bob" 50
              (HookResult.Successful (some 20)) = ft1) ∧
       (lookupGet sampleState.accounts "alice" = none →
        ∃ ft1,
          internal_withdraw sampleState "bob"
              (min rb (resolve_unused_amount 50
                (HookResult.Successful (some 20)))) = .ok ft1 ∧
          ft_resolve_transfer_commit sampleState "alice" "bob" 50
              (HookResult.Successful (some 20)) = ft1))) ∧
    ((resolve_unused_amount 50 (HookResult.Successful (some 20)) = 0 ∨
        (lookupGet sampleState.accounts "bob").getD 0 = 0) →
      ft_resolve_transfer_commit sampleState "alice" "bob" 50
        (HookResult.Successful (some 20)) = sampleState) :=
  C8_resolve_refines_primitives (by decide) (by decide)
